import Mathlib

/-!
Verification of the goga genetic-algorithm engine (package `goga`,
`src/examples/string.go`, middle file: the library itself).

The engine's float64 fitness values are modelled by `GFloat`: either an exact
rational or NaN.  Addition is NaN-absorbing and comparisons against NaN are
false, as in IEEE arithmetic; division by zero is modelled as NaN following the
specification of `Normalize` (no claim exercises that branch).  Go interface
values (`Chromosome`) are pointers; `Chrom.id` models the pointer identity,
`Chrom.fitness` the mutable fitness field.  Randomness (`rand.Float64()`) is
passed in as explicit rational draw streams.  Goroutine fan-out is modelled by
deterministic in-order completion; stage barriers make that observationally
faithful for the properties treated here, except in `Crossover`, where the
channel consumer loop is modelled step by step (including its blocking and
close behaviour) because its termination is itself under scrutiny.
-/

/-- Model of a Go float64 fitness value: an exact rational or NaN. -/
inductive GFloat where
  | nan : GFloat
  | val : ℚ → GFloat
deriving DecidableEq, Repr

/-- Float addition: NaN-absorbing, exact on rationals. -/
def gfAdd : GFloat → GFloat → GFloat
  | GFloat.val a, GFloat.val b => GFloat.val (a + b)
  | _, _ => GFloat.nan

/-- Float division, as used by `Member.Normalize`: NaN-absorbing; division by
zero produces NaN (the spec's account of `Normalize` with a zero total). -/
def gfDiv : GFloat → GFloat → GFloat
  | GFloat.val a, GFloat.val b => if b = 0 then GFloat.nan else GFloat.val (a / b)
  | _, _ => GFloat.nan

/-- The `>` comparison on floats: false whenever either side is NaN. -/
def gfGt : GFloat → GFloat → Bool
  | GFloat.val a, GFloat.val b => decide (b < a)
  | _, _ => false

/-- `math.IsNaN`. -/
def gfIsNan : GFloat → Bool
  | GFloat.nan => true
  | GFloat.val _ => false

/-- Total comparison used to model `sort.Sort`'s ascending order on fitness.
On two non-NaN values it agrees with `Population.Less` (`GetFitness() <`);
lists containing NaN are ordered with NaN first (Go's sort is unspecified on
NaN inputs, so any permutation is a faithful model there). -/
def gfLe : GFloat → GFloat → Bool
  | GFloat.nan, _ => true
  | GFloat.val _, GFloat.nan => false
  | GFloat.val a, GFloat.val b => decide (a ≤ b)

/-- One chromosome: `id` models the Go interface pointer identity, `fitness`
the mutable fitness field.  The caller-owned value representation is opaque to
the engine and not needed by any claim. -/
structure Chrom where
  id : Nat
  fitness : GFloat
deriving DecidableEq, Repr

/-- `sum := 0.0; for _, c := range population { sum += c.GetFitness() }`
at the top of `selectParent`. -/
def sumFitness (population : List Chrom) : GFloat :=
  population.foldl (fun s c => gfAdd s c.fitness) (GFloat.val 0)

/-- Step 1 of `selectParent`: `population[i].Normalize(sum)` for every member,
with `sum` computed once beforehand. -/
def normalizePop (population : List Chrom) : List Chrom :=
  let sum := sumFitness population
  population.map fun c => { c with fitness := gfDiv c.fitness sum }

/-- The comparator `Population.Less` lifted to the sort model (see `gfLe`). -/
def chromLe (c d : Chrom) : Prop := gfLe c.fitness d.fitness = true

instance : DecidableRel chromLe := fun c d => decEq (gfLe c.fitness d.fitness) true

/-- Step 2 of `selectParent`: `sort.Sort(Population(population))` sorts the
normalized pool ASCENDING by fitness (`sort.Sort` is not stable, so any
sorted permutation is a faithful model; insertion sort is used here).  The
following line of the source, `sort.Reverse(Population(population))`, merely
builds a reversed comparator and discards it (its return value is never
passed to `sort.Sort`), so it has no effect and is not modelled: the pool
stays in ascending order. -/
def sortedNormalized (population : List Chrom) : List Chrom :=
  (normalizePop population).insertionSort chromLe

/-- Step 3 of `selectParent`: the accumulation pass, `accumulation += fitness;
AccNormalize(accumulation)` member by member. -/
def accPass : GFloat → List Chrom → List Chrom
  | _, [] => []
  | acc, c :: rest =>
      let acc2 := gfAdd acc c.fitness
      { c with fitness := acc2 } :: accPass acc2 rest

/-- The pool as it stands when the random draw is made: normalized, sorted,
accumulated (steps 1-3 of `selectParent`). -/
def preparedPool (population : List Chrom) : List Chrom :=
  accPass (GFloat.val 0) (sortedNormalized population)

/-- Step 5 of `selectParent`: scan for the first member whose accumulated
fitness exceeds `r`; on a hit return it together with
`append(population[:i], population[i+1:]...)`, the pool with that member
removed.  `none` means no member exceeded `r`. -/
def scanPick (r : ℚ) : List Chrom → Option (Chrom × List Chrom)
  | [] => none
  | c :: rest =>
      if gfGt c.fitness (GFloat.val r) then some (c, rest)
      else (scanPick r rest).map fun pr => (pr.1, c :: pr.2)

/-- `selectParent(population)` with the random draw `r` made explicit.
If the scan finds nobody, the source falls back to
`population[len(population)-1], population[:len(population)-1]`.
`none` models the run-time panic of that indexing on an empty pool. -/
def selectParent (r : ℚ) (population : List Chrom) : Option (Chrom × List Chrom) :=
  let pool := preparedPool population
  match scanPick r pool with
  | some res => some res
  | none =>
      match pool.getLast? with
      | some last => some (last, pool.dropLast)
      | none => none

/-- The loop body of `Goga.Selection`: collect `k` more parents, drawing the
`i`-th random value from the stream `rs`; each iteration of the Go loop
(`for len(parents) < parentsCount`) appends exactly one parent.  `none`
models a panic inside `selectParent`. -/
def selectionGo (rs : Nat → ℚ) : Nat → Nat → List Chrom → Option (List Chrom)
  | 0, _, _ => some []
  | k + 1, i, population =>
      match selectParent (rs i) population with
      | none => none
      | some (p, rest) => (selectionGo rs k (i + 1) rest).map fun ps => p :: ps

/-- `Goga.Selection`: `parentsCount := len(population) / 2` parents collected
by repeated `selectParent` draws against the shrinking pool. -/
def Selection (rs : Nat → ℚ) (population : List Chrom) : Option (List Chrom) :=
  selectionGo rs (population.length / 2) 0 population

/-- The breeding fan-out of `Goga.Crossover`: one `Breed` call per adjacent
pair `(0,1), (2,3), ...`.  `Breed` and the engine's `Converter` are modelled
together as `br`, taking two parents to the two already-converted children;
results are listed in pair order (channel arrival order is non-deterministic
in Go, but no claim depends on it). -/
def breedPairs (br : Chrom → Chrom → Chrom × Chrom) : List Chrom → List (Chrom × Chrom)
  | a :: b :: rest => br a b :: breedPairs br rest
  | _ => []

/-- The fan-in consumer loop of `Goga.Crossover`:
`for children := range c { append both children; count += 2;
if count >= length { close(c) } }`.
Arguments: pending sends, `count`, `length`, whether `close(c)` has been
called, and the collected `nextGeneration`.  The loop exits only when the
channel is closed and drained; `none` models the two run-time faults: the
consumer blocking forever on an open channel with no senders left, and a
producer sending on a closed channel. -/
def fanIn : List (Chrom × Chrom) → Nat → Nat → Bool → List Chrom → Option (List Chrom)
  | [], _, _, true, acc => some acc
  | [], _, _, false, _ => none
  | _ :: _, _, _, true, _ => none
  | pr :: rest, count, len, false, acc =>
      let count2 := count + 2
      fanIn rest count2 len (decide (len ≤ count2)) (acc ++ [pr.1, pr.2])

/-- `Goga.Crossover`: truncate the parent list to the nearest lower multiple
of four when `length%4 != 0`, breed adjacent pairs, and collect the children
through the fan-in loop. -/
def Crossover (br : Chrom → Chrom → Chrom × Chrom) (parents : List Chrom) : Option (List Chrom) :=
  let truncated :=
    if parents.length % 4 ≠ 0 then parents.take (parents.length - parents.length % 4)
    else parents
  fanIn (breedPairs br truncated) 0 truncated.length false []

/-- `Goga.calculatePopulationFitness`: refresh every member's fitness.
`cf` is `CalculateFitness` against the engine's fixed target (a capability of
the caller; it may only write the fitness field). -/
def calculatePopulationFitness (cf : Chrom → GFloat) (population : List Chrom) : List Chrom :=
  population.map fun c => { c with fitness := cf c }

/-- `Goga.Mutation`: for every member, `Mutate()` (the caller-supplied value
perturbation `mutate`) then `CalculateFitness(target)`. -/
def Mutation (cf : Chrom → GFloat) (mutate : Chrom → Chrom) (generation : List Chrom) : List Chrom :=
  generation.map fun c =>
    let c2 := mutate c
    { c2 with fitness := cf c2 }

/-- `Goga.Learn`: for every member, `Learn()` then `CalculateFitness(target)`. -/
def Learn (cf : Chrom → GFloat) (lrn : Chrom → Chrom) (generation : List Chrom) : List Chrom :=
  generation.map fun c =>
    let c2 := lrn c
    { c2 with fitness := cf c2 }

/-- The loop body of `getBestChromosome`:
`if individual.GetFitness() > best.GetFitness() || math.IsNaN(best.GetFitness())
 { best = individual }`. -/
def bestStep (best ind : Chrom) : Chrom :=
  if gfGt ind.fitness best.fitness || gfIsNan best.fitness then ind else best

/-- `getBestChromosome`: `best := population[0]`, then the scan over the whole
population.  `none` models the panic of `population[0]` on an empty list. -/
def getBestChromosome : List Chrom → Option Chrom
  | [] => none
  | c :: rest => some ((c :: rest).foldl bestStep c)

/-- `isGoodEnough`: `getBestChromosome(population).IsGoodEnough()`, with the
threshold test `good` supplied by the chromosome capability. -/
def isGoodEnough (good : Chrom → Bool) (population : List Chrom) : Option Bool :=
  (getBestChromosome population).map good

/-- The caller-supplied capability bundle consumed by `Run`: combined
breed-and-convert, fitness calculation against the fixed target, mutation,
learning, and the convergence threshold test. -/
structure Caps where
  br : Chrom → Chrom → Chrom × Chrom
  cf : Chrom → GFloat
  mutate : Chrom → Chrom
  lrn : Chrom → Chrom
  good : Chrom → Bool

/-- One generation of `Goga.Run`'s loop body up to the bookkeeping:
Selection, re-evaluation of the parents, Crossover, Mutation, Learn, and the
merge `population = append(parents, nextGeneration...)`.  Returns
(parents, varied children, next working population); `none` models a
run-time fault in a stage. -/
def genStep (C : Caps) (rs : Nat → Nat → ℚ) (i : Nat) (population : List Chrom) :
    Option (List Chrom × List Chrom × List Chrom) :=
  match Selection (rs i) population with
  | none => none
  | some parents0 =>
      let parents := calculatePopulationFitness C.cf parents0
      match Crossover C.br parents with
      | none => none
      | some children0 =>
          let children := Learn C.cf C.lrn (Mutation C.cf C.mutate children0)
          some (parents, children, parents ++ children)

/-- `fmt.Sprintf("Took %d generations.", i)`. -/
def successStatus (i : Nat) : String := "Took " ++ toString i ++ " generations."

/-- `fmt.Sprintf("Failed to converge after %d iterations.", maxIterations)`. -/
def failedStatus (n : Nat) : String := "Failed to converge after " ++ toString n ++ " iterations."

/-- The two outward-facing fields of the engine state: `Result` (nil until
first assigned, hence an `Option`) and `Status`. -/
structure RunOutcome where
  result : Option Chrom
  status : String
deriving DecidableEq, Repr

/-- The generation loop of `Goga.Run` (`for i := 0; i < MaxIterations; i++`):
`fuel` is the number of iterations left, `i` the current generation index,
`st` the engine's `Result`/`Status` fields.  Each generation sets
`Result = getBestChromosome(nextGeneration)`; on `isGoodEnough` it sets the
success status and breaks.  `none` models a run-time fault in the body. -/
def runLoop (C : Caps) (rs : Nat → Nat → ℚ) :
    Nat → Nat → List Chrom → RunOutcome → Option RunOutcome
  | 0, _, _, st => some st
  | fuel + 1, i, population, st =>
      match genStep C rs i population with
      | none => none
      | some (_, children, nextPop) =>
          match getBestChromosome children, isGoodEnough C.good children with
          | some best, some g =>
              if g then some { result := some best, status := successStatus i }
              else runLoop C rs fuel (i + 1) nextPop { result := some best, status := st.status }
          | _, _ => none

/-- `Goga.Run`: evaluate the initial population, preset the bounded-failure
status, then run the generation loop. -/
def Run (C : Caps) (rs : Nat → Nat → ℚ) (maxIterations : Nat) (population : List Chrom) :
    Option RunOutcome :=
  let pop2 := calculatePopulationFitness C.cf population
  runLoop C rs maxIterations 0 pop2 { result := none, status := failedStatus maxIterations }

/-! ### Helper notions for the proofs -/

/-- The rational under a fitness value (0 for NaN; only used on populations
proved NaN-free). -/
def fitQ (c : Chrom) : ℚ :=
  match c.fitness with
  | GFloat.val q => q
  | GFloat.nan => 0

/-- Exact prefix sums of a list of rationals, mirroring `accPass`. -/
def accQ : ℚ → List ℚ → List ℚ
  | _, [] => []
  | a, q :: rest => (a + q) :: accQ (a + q) rest

lemma gfAdd_nan_left (y : GFloat) : gfAdd GFloat.nan y = GFloat.nan := by
  cases y <;> rfl

lemma gfAdd_val_val (a b : ℚ) : gfAdd (GFloat.val a) (GFloat.val b) = GFloat.val (a + b) := rfl

lemma foldl_gfAdd_nan (l : List Chrom) :
    l.foldl (fun s c => gfAdd s c.fitness) GFloat.nan = GFloat.nan := by
  induction l with
  | nil => rfl
  | cons c l ih => simp [gfAdd_nan_left, ih]

lemma foldl_gfAdd_val (l : List Chrom) : ∀ a s : ℚ,
    l.foldl (fun s c => gfAdd s c.fitness) (GFloat.val a) = GFloat.val s →
    (∀ c ∈ l, ∃ q, c.fitness = GFloat.val q) ∧ s = a + (l.map fitQ).sum := by
  induction l with
  | nil =>
      intro a s h
      simp only [List.foldl_nil, GFloat.val.injEq] at h
      simp [h]
  | cons c l ih =>
      intro a s h
      rw [List.foldl_cons] at h
      cases hc : c.fitness with
      | nan =>
          rw [hc] at h
          have : gfAdd (GFloat.val a) GFloat.nan = GFloat.nan := rfl
          rw [this, foldl_gfAdd_nan] at h
          exact absurd h (by simp)
      | val q =>
          rw [hc, gfAdd_val_val] at h
          obtain ⟨hall, hsum⟩ := ih (a + q) s h
          refine ⟨?_, ?_⟩
          · intro d hd
            rcases List.mem_cons.mp hd with hd | hd
            · exact ⟨q, hd ▸ hc⟩
            · exact hall d hd
          · simp only [List.map_cons, List.sum_cons, fitQ, hc]
            rw [hsum]; ring

lemma sumFitness_val {pop : List Chrom} {s : ℚ} (h : sumFitness pop = GFloat.val s) :
    (∀ c ∈ pop, ∃ q, c.fitness = GFloat.val q) ∧ s = (pop.map fitQ).sum := by
  have := foldl_gfAdd_val pop 0 s h
  simpa using this

lemma sumFitness_nil : sumFitness ([] : List Chrom) = GFloat.val 0 := rfl

lemma map_div_sum (l : List ℚ) (s : ℚ) : (l.map (· / s)).sum = l.sum / s := by
  induction l with
  | nil => simp
  | cons q l ih => simp [ih, add_div]

lemma sum_nonpos_of_forall (l : List ℚ) (h : ∀ x ∈ l, x ≤ 0) : l.sum ≤ 0 := by
  induction l with
  | nil => simp
  | cons q l ih =>
      have h1 := h q (List.mem_cons_self q l)
      have h2 := ih fun x hx => h x (List.mem_cons_of_mem q hx)
      simp only [List.sum_cons]
      linarith

lemma normalizePop_spec {pop : List Chrom} {s : ℚ} (hs : sumFitness pop = GFloat.val s)
    (h0 : s ≠ 0) :
    (∀ c ∈ normalizePop pop, ∃ q, c.fitness = GFloat.val q) ∧
    (normalizePop pop).map fitQ = (pop.map fitQ).map (· / s) ∧
    (normalizePop pop).map Chrom.id = pop.map Chrom.id := by
  obtain ⟨hall, -⟩ := sumFitness_val hs
  have hdef : normalizePop pop =
      pop.map fun c => { c with fitness := gfDiv c.fitness (GFloat.val s) } := by
    simp [normalizePop, hs]
  refine ⟨?_, ?_, ?_⟩
  · intro c hc
    rw [hdef, List.mem_map] at hc
    obtain ⟨d, hd, rfl⟩ := hc
    obtain ⟨q, hq⟩ := hall d hd
    exact ⟨q / s, by simp [hq, gfDiv, h0]⟩
  · rw [hdef, List.map_map, List.map_map]
    refine List.map_congr_left fun c hc => ?_
    obtain ⟨q, hq⟩ := hall c hc
    simp [Function.comp, fitQ, hq, gfDiv, h0]
  · rw [hdef, List.map_map]
    rfl

instance : IsTotal Chrom chromLe := by
  constructor
  intro a b
  unfold chromLe gfLe
  cases a.fitness with
  | nan => left; rfl
  | val qa =>
      cases b.fitness with
      | nan => right; rfl
      | val qb =>
          rcases le_total qa qb with h | h
          · left; simpa using h
          · right; simpa using h

instance : IsTrans Chrom chromLe := by
  constructor
  intro a b c hab hbc
  unfold chromLe gfLe at hab hbc ⊢
  cases ha : a.fitness with
  | nan => rfl
  | val qa =>
      cases hb : b.fitness with
      | nan => rw [ha, hb] at hab; exact absurd hab (by simp)
      | val qb =>
          cases hc : c.fitness with
          | nan => rw [hb, hc] at hbc; exact absurd hbc (by simp)
          | val qc =>
              rw [ha, hb] at hab
              rw [hb, hc] at hbc
              simp only [decide_eq_true_eq] at hab hbc ⊢
              exact le_trans hab hbc

lemma sorted_fitQ {l : List Chrom} (hall : ∀ c ∈ l, ∃ q, c.fitness = GFloat.val q)
    (hs : List.Sorted chromLe l) : List.Pairwise (· ≤ ·) (l.map fitQ) := by
  rw [List.pairwise_map]
  refine hs.imp_of_mem ?_
  intro a b ha hb hab
  obtain ⟨qa, hqa⟩ := hall a ha
  obtain ⟨qb, hqb⟩ := hall b hb
  unfold chromLe at hab
  rw [hqa, hqb] at hab
  simp only [gfLe, decide_eq_true_eq] at hab
  simp [fitQ, hqa, hqb, hab]

lemma accPass_id_map : ∀ (acc : GFloat) (l : List Chrom),
    (accPass acc l).map Chrom.id = l.map Chrom.id := by
  intro acc l
  induction l generalizing acc with
  | nil => rfl
  | cons c rest ih => simp [accPass, ih]

lemma accPass_fitQ : ∀ (a : ℚ) (l : List Chrom),
    (∀ c ∈ l, ∃ q, c.fitness = GFloat.val q) →
    (accPass (GFloat.val a) l).map fitQ = accQ a (l.map fitQ) ∧
    (∀ c ∈ accPass (GFloat.val a) l, ∃ q, c.fitness = GFloat.val q) := by
  intro a l
  induction l generalizing a with
  | nil => intro _; exact ⟨rfl, by simp [accPass]⟩
  | cons c rest ih =>
      intro hall
      obtain ⟨q, hq⟩ := hall c (List.mem_cons_self c rest)
      have hrest : ∀ d ∈ rest, ∃ p, d.fitness = GFloat.val p :=
        fun d hd => hall d (List.mem_cons_of_mem c hd)
      obtain ⟨ihmap, ihall⟩ := ih (a + q) hrest
      constructor
      · simp only [accPass, hq, gfAdd_val_val, List.map_cons, accQ, fitQ, ihmap]
      · intro d hd
        simp only [accPass, hq, gfAdd_val_val] at hd
        rcases List.mem_cons.mp hd with hd | hd
        · exact ⟨a + q, by rw [hd]⟩
        · exact ihall d hd

lemma accQ_getLast : ∀ (a : ℚ) (l : List ℚ), l ≠ [] →
    (accQ a l).getLast? = some (a + l.sum) := by
  intro a l
  induction l generalizing a with
  | nil => intro h; exact absurd rfl h
  | cons q rest ih =>
      intro _
      cases rest with
      | nil => simp [accQ]
      | cons r t =>
          have h2 := ih (a + q) (by simp)
          simp only [accQ] at h2 ⊢
          rw [List.getLast?_cons_cons, h2]
          simp only [List.sum_cons]
          ring_nf

lemma accQ_mem : ∀ (a : ℚ) (l : List ℚ) (x : ℚ), x ∈ accQ a l →
    ∃ k, 1 ≤ k ∧ k ≤ l.length ∧ x = a + (l.take k).sum := by
  intro a l
  induction l generalizing a with
  | nil => intro x hx; exact absurd hx (by simp [accQ])
  | cons q rest ih =>
      intro x hx
      simp only [accQ, List.mem_cons] at hx
      rcases hx with hx | hx
      · exact ⟨1, le_refl 1, by simp, by simp [hx]⟩
      · obtain ⟨k, hk1, hk2, hkx⟩ := ih (a + q) x hx
        refine ⟨k + 1, by omega, by simp; omega, ?_⟩
        simp only [List.take_succ_cons, List.sum_cons]
        rw [hkx]; ring

lemma sorted_prefix_sum_le (l : List ℚ) (hs : List.Pairwise (· ≤ ·) l)
    (hsum : l.sum = 1) (k : Nat) : (l.take k).sum ≤ 1 := by
  by_contra hgt
  push_neg at hgt
  have hsplit : (l.take k).sum + (l.drop k).sum = 1 := by
    rw [← List.sum_append, List.take_append_drop, hsum]
  have hdropneg : (l.drop k).sum < 0 := by linarith
  have hyneg : ∃ y ∈ l.drop k, y < 0 := by
    by_contra hy
    push_neg at hy
    have := List.sum_nonneg hy
    linarith
  obtain ⟨y, hy, hylt⟩ := hyneg
  have hsplitlist : List.Pairwise (· ≤ ·) (l.take k ++ l.drop k) := by
    rw [List.take_append_drop]; exact hs
  have hple : ∀ x ∈ l.take k, x ≤ y :=
    fun x hx => (List.pairwise_append.mp hsplitlist).2.2 x hx y hy
  have htakeneg : ∀ x ∈ l.take k, x ≤ 0 :=
    fun x hx => le_trans (hple x hx) (le_of_lt hylt)
  have := sum_nonpos_of_forall (l.take k) htakeneg
  linarith

lemma accPass_length (acc : GFloat) (l : List Chrom) : (accPass acc l).length = l.length := by
  induction l generalizing acc with
  | nil => rfl
  | cons c rest ih => simp [accPass, ih]

lemma normalizePop_id (pop : List Chrom) :
    (normalizePop pop).map Chrom.id = pop.map Chrom.id := by
  simp only [normalizePop, List.map_map]
  rfl

lemma sortedNormalized_length (pop : List Chrom) :
    (sortedNormalized pop).length = pop.length := by
  have h := (List.perm_insertionSort chromLe (normalizePop pop)).length_eq
  rw [sortedNormalized, h]
  simp [normalizePop]

lemma preparedPool_length (pop : List Chrom) : (preparedPool pop).length = pop.length := by
  rw [preparedPool, accPass_length, sortedNormalized_length]

lemma preparedPool_id_perm (pop : List Chrom) :
    ((preparedPool pop).map Chrom.id).Perm (pop.map Chrom.id) := by
  rw [preparedPool, accPass_id_map, sortedNormalized]
  have h1 := (List.perm_insertionSort chromLe (normalizePop pop)).map Chrom.id
  rwa [normalizePop_id] at h1

/-- C7: after the normalization pass (divide each fitness by the population
total) and the accumulation pass of a selection draw over a population with
nonzero total fitness, the value assigned to the last member walked is
exactly 1 in exact rational arithmetic, and it is the maximum accumulated
value: every member of the prepared pool carries an accumulated value at
most 1. -/
theorem c7_accumulated_fitness_reaches_one (pop : List Chrom) (s : ℚ)
    (hs : sumFitness pop = GFloat.val s) (h0 : s ≠ 0) :
    (preparedPool pop).getLast?.map Chrom.fitness = some (GFloat.val 1) ∧
    ∀ c ∈ preparedPool pop, ∃ q, c.fitness = GFloat.val q ∧ q ≤ 1 := by
  have hne : pop ≠ [] := by
    intro h
    rw [h, sumFitness_nil] at hs
    injection hs with hs0
    exact h0 hs0.symm
  obtain ⟨-, hsval⟩ := sumFitness_val hs
  obtain ⟨hallN, hmapN, -⟩ := normalizePop_spec hs h0
  have hsumN : ((normalizePop pop).map fitQ).sum = 1 := by
    rw [hmapN, map_div_sum, ← hsval, div_self h0]
  have hperm : (sortedNormalized pop).Perm (normalizePop pop) :=
    List.perm_insertionSort _ _
  have hallS : ∀ c ∈ sortedNormalized pop, ∃ q, c.fitness = GFloat.val q :=
    fun c hc => hallN c (hperm.mem_iff.mp hc)
  have hsumS : ((sortedNormalized pop).map fitQ).sum = 1 := by
    rw [(hperm.map fitQ).sum_eq, hsumN]
  have hsorted : List.Pairwise (· ≤ ·) ((sortedNormalized pop).map fitQ) :=
    sorted_fitQ hallS (List.sorted_insertionSort _ _)
  obtain ⟨hmapA, hallA⟩ := accPass_fitQ 0 (sortedNormalized pop) hallS
  have hPne : preparedPool pop ≠ [] := by
    intro h
    have hlen := preparedPool_length pop
    rw [h] at hlen
    exact hne (List.length_eq_zero.mp hlen.symm)
  constructor
  · obtain ⟨lastc, hlast⟩ := Option.isSome_iff_exists.mp (List.getLast?_isSome.mpr hPne)
    have hmapped : ((preparedPool pop).map fitQ).getLast? = some 1 := by
      have hSne : ((sortedNormalized pop).map fitQ) ≠ [] := by
        intro h
        have : (sortedNormalized pop) = [] := by
          cases hsn : sortedNormalized pop with
          | nil => rfl
          | cons a t => rw [hsn] at h; exact absurd h (by simp)
        have hlen := sortedNormalized_length pop
        rw [this] at hlen
        exact hne (List.length_eq_zero.mp hlen.symm)
      have : (preparedPool pop).map fitQ = accQ 0 ((sortedNormalized pop).map fitQ) := hmapA
      rw [this, accQ_getLast 0 _ hSne, hsumS]
      norm_num
    rw [List.getLast?_map] at hmapped
    rw [hlast] at hmapped
    have hfq : fitQ lastc = 1 := by
      injection hmapped
    have hfit : lastc.fitness = GFloat.val 1 := by
      unfold fitQ at hfq
      cases hl : lastc.fitness with
      | nan => rw [hl] at hfq; norm_num at hfq
      | val q => rw [hl] at hfq; simp at hfq; exact congrArg GFloat.val hfq
    rw [hlast]
    simp [hfit]
  · intro c hc
    obtain ⟨q, hq⟩ := hallA c hc
    refine ⟨q, hq, ?_⟩
    have hqmem : q ∈ (preparedPool pop).map fitQ :=
      List.mem_map.mpr ⟨c, hc, by simp [fitQ, hq]⟩
    rw [show (preparedPool pop).map fitQ = accQ 0 ((sortedNormalized pop).map fitQ)
      from hmapA] at hqmem
    obtain ⟨k, -, -, hkq⟩ := accQ_mem 0 _ q hqmem
    have hle := sorted_prefix_sum_le _ hsorted hsumS k
    rw [hkq]
    linarith

lemma scanPick_perm (r : ℚ) : ∀ (l : List Chrom) {p : Chrom} {rest : List Chrom},
    scanPick r l = some (p, rest) → (p :: rest).Perm l := by
  intro l
  induction l with
  | nil => intro p rest h; simp [scanPick] at h
  | cons c t ih =>
      intro p rest h
      rw [scanPick] at h
      split at h
      · obtain ⟨rfl, rfl⟩ := Prod.mk.injEq .. ▸ Option.some.inj h
        exact List.Perm.refl _
      · cases hs : scanPick r t with
        | none => rw [hs] at h; exact absurd h (by simp)
        | some pr =>
            obtain ⟨p2, rest2⟩ := pr
            rw [hs] at h
            obtain ⟨rfl, rfl⟩ := Prod.mk.injEq .. ▸ Option.some.inj h
            exact (List.Perm.swap c p2 rest2).trans ((ih hs).cons c)

lemma getLast_pick_perm (l : List Chrom) (last : Chrom) (h : l.getLast? = some last) :
    (last :: l.dropLast).Perm l := by
  have hne : l ≠ [] := by
    intro hl; rw [hl] at h; simp at h
  have h2 : l.getLast hne = last := by
    have := List.getLast?_eq_getLast l hne
    rw [this] at h
    exact Option.some.inj h
  have h3 : l.dropLast ++ [last] = l := by rw [← h2]; exact List.dropLast_append_getLast hne
  calc (last :: l.dropLast).Perm (l.dropLast ++ [last]) :=
        (List.perm_append_singleton last l.dropLast).symm
    _ = l := h3

lemma selectParent_spec (r : ℚ) (pop : List Chrom) (hne : pop ≠ []) :
    ∃ p rest, selectParent r pop = some (p, rest) ∧
      ((p :: rest).map Chrom.id).Perm (pop.map Chrom.id) ∧
      rest.length + 1 = pop.length := by
  have hPne : preparedPool pop ≠ [] := by
    intro h
    have hlen := preparedPool_length pop
    rw [h] at hlen
    exact hne (List.length_eq_zero.mp hlen.symm)
  cases hsp : scanPick r (preparedPool pop) with
  | some pr =>
      obtain ⟨p, rest⟩ := pr
      refine ⟨p, rest, ?_, ?_, ?_⟩
      · simp [selectParent, hsp]
      · exact ((scanPick_perm r _ hsp).map Chrom.id).trans (preparedPool_id_perm pop)
      · have h := (scanPick_perm r _ hsp).length_eq
        rw [preparedPool_length] at h
        simpa using h
  | none =>
      obtain ⟨last, hlast⟩ := Option.isSome_iff_exists.mp (List.getLast?_isSome.mpr hPne)
      refine ⟨last, (preparedPool pop).dropLast, ?_, ?_, ?_⟩
      · simp [selectParent, hsp, hlast]
      · exact ((getLast_pick_perm _ _ hlast).map Chrom.id).trans (preparedPool_id_perm pop)
      · have h := (getLast_pick_perm _ _ hlast).length_eq
        rw [preparedPool_length] at h
        simpa using h

lemma selectionGo_spec (rs : Nat → ℚ) : ∀ (k i : Nat) (pop : List Chrom), k ≤ pop.length →
    ∃ ps, selectionGo rs k i pop = some ps ∧ ps.length = k ∧
      ((ps.map Chrom.id : Multiset Nat) ≤ (pop.map Chrom.id : Multiset Nat)) := by
  intro k
  induction k with
  | zero => intro i pop _; exact ⟨[], rfl, rfl, by simp⟩
  | succ k ih =>
      intro i pop hk
      have hne : pop ≠ [] := by
        intro h; rw [h] at hk; simp at hk
      obtain ⟨p, rest, hsel, hperm, hlen⟩ := selectParent_spec (rs i) pop hne
      have hrest : k ≤ rest.length := by omega
      obtain ⟨ps, hgo, hpslen, hple⟩ := ih (i + 1) rest hrest
      refine ⟨p :: ps, ?_, by simp [hpslen], ?_⟩
      · simp only [selectionGo, hsel, hgo]
        rfl
      · have hperm_ms : ((p.id :: rest.map Chrom.id : List Nat) : Multiset Nat)
            = ((pop.map Chrom.id : List Nat) : Multiset Nat) := by
          refine Multiset.coe_eq_coe.mpr ?_
          simpa using hperm
        calc ((p :: ps).map Chrom.id : Multiset Nat)
            = p.id ::ₘ ((ps.map Chrom.id : List Nat) : Multiset Nat) := by
              simp [Multiset.cons_coe]
          _ ≤ p.id ::ₘ ((rest.map Chrom.id : List Nat) : Multiset Nat) :=
              Multiset.cons_le_cons _ hple
          _ = ((pop.map Chrom.id : List Nat) : Multiset Nat) := by
              rw [Multiset.cons_coe]
              exact hperm_ms

/-- C1: for every population with strictly positive total fitness (and with
pairwise distinct members, as Go interface pointers are), `Selection` returns
exactly `len(population)/2` parents, each originally present in the
population, and no member appears twice among them: every draw removes the
selected member from the working pool. -/
theorem c1_selection_returns_half_distinct (rs : Nat → ℚ) (pop : List Chrom) (s : ℚ)
    (hnd : (pop.map Chrom.id).Nodup)
    (hs : sumFitness pop = GFloat.val s) (hpos : 0 < s) :
    ∃ parents, Selection rs pop = some parents ∧
      parents.length = pop.length / 2 ∧
      (∀ p ∈ parents, p.id ∈ pop.map Chrom.id) ∧
      (parents.map Chrom.id).Nodup := by
  obtain ⟨ps, hgo, hlen, hle⟩ :=
    selectionGo_spec rs (pop.length / 2) 0 pop (Nat.div_le_self _ _)
  refine ⟨ps, hgo, hlen, ?_, ?_⟩
  · intro p hp
    have h1 : p.id ∈ ((ps.map Chrom.id : List Nat) : Multiset Nat) := by
      rw [Multiset.mem_coe]
      exact List.mem_map.mpr ⟨p, hp, rfl⟩
    have h2 := Multiset.mem_of_le hle h1
    rwa [Multiset.mem_coe] at h2
  · have h1 : ((ps.map Chrom.id : List Nat) : Multiset Nat).Nodup :=
      Multiset.nodup_of_le hle (Multiset.coe_nodup.mpr hnd)
    rwa [Multiset.coe_nodup] at h1

/-- C10: `Selection` terminates on every finite population: each successful
`selectParent` draw returns a working pool exactly one element smaller, so
collecting `len(population)/2` parents performs exactly that many draws and
the pool never empties before the target count is reached (the Go loop never
blocks or panics). -/
theorem c10_selection_terminates :
    (∀ (r : ℚ) (pop : List Chrom), pop ≠ [] →
      ∃ p rest, selectParent r pop = some (p, rest) ∧ rest.length + 1 = pop.length) ∧
    (∀ (rs : Nat → ℚ) (pop : List Chrom),
      ∃ parents, Selection rs pop = some parents ∧ parents.length = pop.length / 2) := by
  constructor
  · intro r pop hne
    obtain ⟨p, rest, h1, -, h3⟩ := selectParent_spec r pop hne
    exact ⟨p, rest, h1, h3⟩
  · intro rs pop
    obtain ⟨ps, hgo, hlen, -⟩ :=
      selectionGo_spec rs (pop.length / 2) 0 pop (Nat.div_le_self _ _)
    exact ⟨ps, hgo, hlen⟩

/-- C2 is FALSE of the code: on the two-member population with fitnesses
1 and 3, after normalization (sum 4, normalized values 1/4 and 3/4) the pool
stands in ASCENDING order when the accumulation pass begins: index 0 holds
the member with the LOWEST normalized fitness, 1/4, not the highest.  The
cause is `sort.Reverse(Population(population))` on the line after
`sort.Sort`: its return value is discarded instead of being passed to
`sort.Sort`, contradicting the code's own comment that the population is
sorted by descending fitness. -/
theorem c2_sort_ascending_at_failing_input :
    (sortedNormalized [⟨0, GFloat.val 1⟩, ⟨1, GFloat.val 3⟩]).map Chrom.fitness
      = [GFloat.val (1/4), GFloat.val (3/4)] := by
  norm_num [sortedNormalized, normalizePop, sumFitness, gfAdd, gfDiv, gfLe, chromLe,
    List.insertionSort, List.orderedInsert]

lemma breedPairs_length (br : Chrom → Chrom → Chrom × Chrom) :
    ∀ l : List Chrom, (breedPairs br l).length = l.length / 2
  | [] => by simp [breedPairs]
  | [a] => by simp [breedPairs]
  | a :: b :: rest => by
      simp only [breedPairs, List.length_cons]
      rw [breedPairs_length br rest]
      omega

lemma fanIn_some_length : ∀ (sends : List (Chrom × Chrom)) (count len : Nat) (closed : Bool)
    (acc out : List Chrom), fanIn sends count len closed acc = some out →
    out.length = acc.length + 2 * sends.length := by
  intro sends
  induction sends with
  | nil =>
      intro count len closed acc out h
      cases closed with
      | true =>
          simp only [fanIn] at h
          rw [← Option.some.inj h]
          simp
      | false => simp [fanIn] at h
  | cons pr rest ih =>
      intro count len closed acc out h
      cases closed with
      | true => simp [fanIn] at h
      | false =>
          simp only [fanIn] at h
          have h2 := ih (count + 2) len _ _ out h
          simp only [List.length_append, List.length_cons, List.length_nil] at h2
          simp only [List.length_cons]
          omega

lemma fanIn_run : ∀ (sends : List (Chrom × Chrom)) (count len : Nat) (acc : List Chrom),
    count + 2 * sends.length = len → count < len →
    ∃ out, fanIn sends count len false acc = some out := by
  intro sends
  induction sends with
  | nil =>
      intro count len acc heq hlt
      simp only [List.length_nil] at heq
      omega
  | cons pr rest ih =>
      intro count len acc heq hlt
      simp only [List.length_cons] at heq
      cases rest with
      | nil =>
          simp only [List.length_nil] at heq
          refine ⟨acc ++ [pr.1, pr.2], ?_⟩
          simp only [fanIn]
          rw [show decide (len ≤ count + 2) = true by simp only [decide_eq_true_eq]; omega]
          simp [fanIn]
      | cons pr2 rest2 =>
          simp only [List.length_cons] at heq
          have hlt2 : count + 2 < len := by omega
          obtain ⟨out, hout⟩ := ih (count + 2) len (acc ++ [pr.1, pr.2])
            (by simp only [List.length_cons]; omega) hlt2
          refine ⟨out, ?_⟩
          simp only [fanIn]
          rw [show decide (len ≤ count + 2) = false by simp only [decide_eq_false_iff_not]; omega]
          exact hout

lemma crossover_trunc_length (parents : List Chrom) :
    (if parents.length % 4 ≠ 0 then parents.take (parents.length - parents.length % 4)
      else parents).length = 4 * (parents.length / 4) := by
  split
  · rw [List.length_take]; omega
  · next h =>
      push_neg at h
      omega

/-- C3 (amended): for every parent list containing at least four parents,
`Crossover` returns exactly `4 * (len(parents)/4)` children: the list is
silently truncated to the nearest lower multiple of four and two children are
produced per adjacent pair.  (With fewer than four parents the claim fails:
see the counterexample, where the fan-in loop blocks forever.) -/
theorem c3_crossover_children_count (br : Chrom → Chrom → Chrom × Chrom)
    (parents : List Chrom) (h4 : 4 ≤ parents.length) :
    ∃ cs, Crossover br parents = some cs ∧ cs.length = 4 * (parents.length / 4) := by
  rw [Crossover]
  have hT := crossover_trunc_length parents
  set T := if parents.length % 4 ≠ 0 then parents.take (parents.length - parents.length % 4)
    else parents with hTdef
  have heven : T.length % 2 = 0 := by omega
  have hsends : (breedPairs br T).length = T.length / 2 := breedPairs_length br T
  obtain ⟨out, hout⟩ := fanIn_run (breedPairs br T) 0 T.length []
    (by rw [hsends]; omega) (by omega)
  refine ⟨out, hout, ?_⟩
  have := fanIn_some_length (breedPairs br T) 0 T.length false [] out hout
  rw [hsends] at this
  simp only [List.length_nil] at this
  omega

/-- C3 is FALSE as universally stated: on a parent list of three, truncation
leaves zero pairs, no goroutine ever sends on the channel, and the consumer
loop (`for children := range c`) blocks forever before its `close` check can
run — a run-time deadlock (`none`), not an empty child list returned without
error. -/
theorem c3_crossover_blocks_below_four :
    Crossover (fun a b => (a, b))
      [⟨0, GFloat.val 1⟩, ⟨1, GFloat.val 1⟩, ⟨2, GFloat.val 1⟩] = none := rfl

lemma calculatePopulationFitness_length (cf : Chrom → GFloat) (l : List Chrom) :
    (calculatePopulationFitness cf l).length = l.length := by
  simp [calculatePopulationFitness]

lemma mutation_length (cf : Chrom → GFloat) (mutate : Chrom → Chrom) (l : List Chrom) :
    (Mutation cf mutate l).length = l.length := by
  simp [Mutation]

lemma learn_length (cf : Chrom → GFloat) (lrn : Chrom → Chrom) (l : List Chrom) :
    (Learn cf lrn l).length = l.length := by
  simp [Learn]

lemma selection_length {rs : Nat → ℚ} {pop parents : List Chrom}
    (h : Selection rs pop = some parents) : parents.length = pop.length / 2 := by
  obtain ⟨ps, hgo, hlen, -⟩ :=
    selectionGo_spec rs (pop.length / 2) 0 pop (Nat.div_le_self _ _)
  rw [Selection, hgo] at h
  rw [← Option.some.inj h, hlen]

lemma crossover_some_length {br : Chrom → Chrom → Chrom × Chrom} {parents cs : List Chrom}
    (h : Crossover br parents = some cs) : cs.length = 4 * (parents.length / 4) := by
  rw [Crossover] at h
  have hT := crossover_trunc_length parents
  set T := if parents.length % 4 ≠ 0 then parents.take (parents.length - parents.length % 4)
    else parents with hTdef
  have hsends : (breedPairs br T).length = T.length / 2 := breedPairs_length br T
  have hlen := fanIn_some_length (breedPairs br T) 0 T.length false [] cs h
  rw [hsends] at hlen
  simp only [List.length_nil] at hlen
  omega

lemma genStep_spec {C : Caps} {rs : Nat → Nat → ℚ} {i : Nat}
    {pop parents children next : List Chrom}
    (h : genStep C rs i pop = some (parents, children, next)) :
    next = parents ++ children ∧ parents.length = pop.length / 2 ∧
    children.length = 4 * (parents.length / 4) := by
  rw [genStep] at h
  cases hsel : Selection (rs i) pop with
  | none => rw [hsel] at h; simp at h
  | some parents0 =>
      rw [hsel] at h
      simp only at h
      cases hcr : Crossover C.br (calculatePopulationFitness C.cf parents0) with
      | none => rw [hcr] at h; simp at h
      | some children0 =>
          rw [hcr] at h
          simp only [Option.some.injEq, Prod.mk.injEq] at h
          obtain ⟨hpar, hch, hnext⟩ := h
          subst hpar hch hnext
          refine ⟨rfl, ?_, ?_⟩
          · rw [calculatePopulationFitness_length]
            exact selection_length hsel
          · rw [learn_length, mutation_length]
            exact crossover_some_length hcr

/-- C4 (amended): in `Run`, the working population for the next generation is
exactly the concatenation of the selected parents with the newly varied
children, so its size is `N/2 + 4*((N/2)/4)` for a working population of size
N.  Size is therefore not conserved exactly — but since the child count is
truncated to a multiple of four it never exceeds the parent count, so the
population can only shrink or stay equal from one generation to the next,
never grow. -/
theorem c4_next_population_parents_append_children (C : Caps) (rs : Nat → Nat → ℚ) (i : Nat)
    (pop parents children next : List Chrom)
    (h : genStep C rs i pop = some (parents, children, next)) :
    next = parents ++ children ∧
    next.length = pop.length / 2 + 4 * ((pop.length / 2) / 4) ∧
    next.length ≤ pop.length := by
  obtain ⟨hnext, hpar, hch⟩ := genStep_spec h
  have hlen : next.length = parents.length + children.length := by
    rw [hnext, List.length_append]
  refine ⟨hnext, ?_, ?_⟩ <;> omega

/-- C5: at the end of a generation, `Run` computes the best-by-fitness
chromosome over the newly varied children only (not over the merged
parents-plus-children population); if that best child's `IsGoodEnough()`
holds, the loop stores that child in `Result`, sets the success status
carrying the current generation index, and stops iterating (the outcome does
not depend on the remaining iteration budget). -/
theorem c5_convergence_checks_children_only (C : Caps) (rs : Nat → Nat → ℚ)
    (fuel i : Nat) (pop : List Chrom) (st : RunOutcome)
    (parents children next : List Chrom) (best : Chrom)
    (hgen : genStep C rs i pop = some (parents, children, next))
    (hbest : getBestChromosome children = some best)
    (hgood : C.good best = true) :
    runLoop C rs (fuel + 1) i pop st = some ⟨some best, successStatus i⟩ := by
  have hig : isGoodEnough C.good children = some true := by
    rw [isGoodEnough, hbest, Option.map_some', hgood]
  rw [runLoop, hgen]
  simp only [hbest, hig]
  simp

/-- The chain of working populations of `Run`: the population standing at
generation `i + k` when generation `i` starts from `pop`, following the
per-generation merge `population = append(parents, nextGeneration...)`.
`none` models a run-time fault in a stage along the way. -/
def genPops (C : Caps) (rs : Nat → Nat → ℚ) : Nat → Nat → List Chrom → Option (List Chrom)
  | 0, _, pop => some pop
  | k + 1, i, pop =>
      match genStep C rs i pop with
      | none => none
      | some (_, _, next) => genPops C rs k (i + 1) next

lemma runLoop_last_generation (C : Caps) (rs : Nat → Nat → ℚ) :
    ∀ (fuel i : Nat) (pop : List Chrom) (st out : RunOutcome),
      runLoop C rs (fuel + 1) i pop st = some out →
      ∃ j popj parents children next,
        genStep C rs j popj = some (parents, children, next) ∧
        genPops C rs (j - i) i pop = some popj ∧
        i ≤ j ∧ j ≤ i + fuel ∧
        out.result = getBestChromosome children ∧
        ((out.status = successStatus j ∧ isGoodEnough C.good children = some true) ∨
         (j = i + fuel ∧ out.status = st.status ∧
           isGoodEnough C.good children = some false)) := by
  intro fuel
  induction fuel with
  | zero =>
      intro i pop st out h
      rw [runLoop] at h
      split at h
      · simp at h
      · next parents children nextPop hg =>
          split at h
          · next best g hbest hig =>
              split at h
              · next hgt =>
                  refine ⟨i, pop, parents, children, nextPop, hg,
                    by simp [Nat.sub_self, genPops], le_refl i, by omega, ?_, Or.inl ⟨?_, ?_⟩⟩
                  · rw [← Option.some.inj h, hbest]
                  · rw [← Option.some.inj h]
                  · rw [hgt] at hig
                    exact hig
              · next hgf =>
                  rw [runLoop] at h
                  rw [Bool.not_eq_true] at hgf
                  have hout := (Option.some.inj h).symm
                  refine ⟨i, pop, parents, children, nextPop, hg,
                    by simp [Nat.sub_self, genPops], le_refl i, by omega, ?_,
                    Or.inr ⟨by omega, ?_, ?_⟩⟩
                  · rw [hout, hbest]
                  · rw [hout]
                  · rw [hgf] at hig
                    exact hig
          · simp at h
  | succ fuel ih =>
      intro i pop st out h
      rw [runLoop] at h
      split at h
      · simp at h
      · next parents children nextPop hg =>
          split at h
          · next best g hbest hig =>
              split at h
              · next hgt =>
                  refine ⟨i, pop, parents, children, nextPop, hg,
                    by simp [Nat.sub_self, genPops], le_refl i, by omega, ?_, Or.inl ⟨?_, ?_⟩⟩
                  · rw [← Option.some.inj h, hbest]
                  · rw [← Option.some.inj h]
                  · rw [hgt] at hig
                    exact hig
              · next hgf =>
                  obtain ⟨j, popj, parents2, children2, next2, hg2, hpops, hij, hbound, hres, hdisj⟩ :=
                    ih (i + 1) nextPop _ out h
                  refine ⟨j, popj, parents2, children2, next2, hg2, ?_, by omega, by omega, hres, ?_⟩
                  · have hji : j - i = (j - (i + 1)) + 1 := by omega
                    rw [hji, genPops, hg]
                    exact hpops
                  · rcases hdisj with hl | ⟨hj, hst, hfalse⟩
                    · exact Or.inl hl
                    · exact Or.inr ⟨by omega, hst, hfalse⟩
          · simp at h

/-- C6 (amended): with `MaxIterations = 0`, `Run` sets the bounded-failure
status without ever consulting Selection, Crossover, Mutation or Learning
(the outcome is the same for every capability bundle), and leaves `Result`
unset (`none`) — no best chromosome has been computed, so none is stored.
With a positive bound, whenever `Run` returns there is a generation `j` on
the run's own population chain (`genPops` from the initially evaluated
population) whose varied children's best is what `Result` holds — and `j` is
the LAST executed generation: either the run converged there (success status
recording `j`), or `j = MaxIterations - 1`, the final generation of the
exhausted bound, its children failed the convergence check, and the
bounded-failure status stands. -/
theorem c6_zero_iterations_failed_status (C : Caps) (rs : Nat → Nat → ℚ)
    (pop : List Chrom) :
    Run C rs 0 pop = some ⟨none, failedStatus 0⟩ ∧
    (∀ (maxIter : Nat) (out : RunOutcome),
      Run C rs (maxIter + 1) pop = some out →
      ∃ j popj parents children next,
        genStep C rs j popj = some (parents, children, next) ∧
        genPops C rs j 0 (calculatePopulationFitness C.cf pop) = some popj ∧
        j ≤ maxIter ∧
        out.result = getBestChromosome children ∧
        ((out.status = successStatus j ∧ isGoodEnough C.good children = some true) ∨
         (j = maxIter ∧ out.status = failedStatus (maxIter + 1) ∧
           isGoodEnough C.good children = some false))) := by
  constructor
  · rfl
  · intro maxIter out h
    rw [Run] at h
    obtain ⟨j, popj, parents, children, next, hg, hpops, hij, hbound, hres, hdisj⟩ :=
      runLoop_last_generation C rs maxIter 0 _ _ out h
    refine ⟨j, popj, parents, children, next, hg, ?_, by omega, hres, ?_⟩
    · rw [Nat.sub_zero] at hpops
      exact hpops
    · rcases hdisj with hl | ⟨hj, hst, hfalse⟩
      · exact Or.inl hl
      · exact Or.inr ⟨by omega, hst, hfalse⟩

lemma bestStep_nan_replaces {best ind : Chrom} (h : gfIsNan best.fitness = true) :
    bestStep best ind = ind := by
  rw [bestStep, h]
  simp

lemma bestStep_keeps_not_nan {best ind : Chrom} (hb : gfIsNan best.fitness = false)
    (hi : gfIsNan ind.fitness = true) : bestStep best ind = best := by
  rw [bestStep, hb]
  have hgt : gfGt ind.fitness best.fitness = false := by
    cases hind : ind.fitness with
    | nan => cases best.fitness <;> rfl
    | val q => rw [hind] at hi; simp [gfIsNan] at hi
  rw [hgt]
  simp

lemma bestStep_not_nan {best ind : Chrom} (hb : gfIsNan best.fitness = false) :
    gfIsNan (bestStep best ind).fitness = false := by
  rw [bestStep, hb]
  by_cases hgt : gfGt ind.fitness best.fitness = true
  · rw [hgt]
    simp only [Bool.or_false, if_true]
    cases hind : ind.fitness with
    | nan => rw [hind] at hgt; cases hbf : best.fitness <;> rw [hbf] at hgt <;> simp [gfGt] at hgt
    | val q => simp [gfIsNan, hind]
  · rw [Bool.not_eq_true] at hgt
    rw [hgt]
    simpa using hb

lemma foldl_bestStep_not_nan (l : List Chrom) : ∀ b : Chrom,
    gfIsNan b.fitness = false → gfIsNan (l.foldl bestStep b).fitness = false := by
  induction l with
  | nil => intro b hb; simpa using hb
  | cons c t ih =>
      intro b hb
      rw [List.foldl_cons]
      exact ih _ (bestStep_not_nan hb)

lemma foldl_bestStep_exists_not_nan (l : List Chrom) : ∀ b : Chrom,
    (∃ x ∈ l, gfIsNan x.fitness = false) → gfIsNan (l.foldl bestStep b).fitness = false := by
  induction l with
  | nil => intro b h; obtain ⟨x, hx, -⟩ := h; simp at hx
  | cons c t ih =>
      intro b h
      rw [List.foldl_cons]
      cases hb : gfIsNan b.fitness with
      | false => exact foldl_bestStep_not_nan t _ (bestStep_not_nan hb)
      | true =>
          rw [bestStep_nan_replaces hb]
          cases hc : gfIsNan c.fitness with
          | false => exact foldl_bestStep_not_nan t c hc
          | true =>
              obtain ⟨x, hx, hxn⟩ := h
              rcases List.mem_cons.mp hx with rfl | hx
              · rw [hxn] at hc; exact absurd hc (by simp)
              · exact ih c ⟨x, hx, hxn⟩

lemma foldl_bestStep_mem (l : List Chrom) : ∀ (b : Chrom) (pop : List Chrom),
    b ∈ pop → (∀ x ∈ l, x ∈ pop) → l.foldl bestStep b ∈ pop := by
  induction l with
  | nil => intro b pop hb _; simpa using hb
  | cons c t ih =>
      intro b pop hb hl
      rw [List.foldl_cons]
      have hc : c ∈ pop := hl c (List.mem_cons_self c t)
      have hstep : bestStep b c ∈ pop := by
        rw [bestStep]
        split
        · exact hc
        · exact hb
      exact ih _ pop hstep fun x hx => hl x (List.mem_cons_of_mem c hx)

/-- C8: `getBestChromosome` never returns a chromosome with NaN fitness when
at least one member of the population has non-NaN fitness: a running best
with NaN fitness is always replaced by the next member scanned, and once the
running best has non-NaN fitness it is never replaced by a NaN-fitness
member — NaN is effectively treated as worse than everything. -/
theorem c8_best_never_nan (pop : List Chrom) (c : Chrom)
    (hc : c ∈ pop) (hcn : gfIsNan c.fitness = false) :
    (∃ b, getBestChromosome pop = some b ∧ gfIsNan b.fitness = false) ∧
    (∀ best ind : Chrom, gfIsNan best.fitness = true → bestStep best ind = ind) ∧
    (∀ best ind : Chrom, gfIsNan best.fitness = false → gfIsNan ind.fitness = true →
      bestStep best ind = best) := by
  refine ⟨?_, fun _ _ h => bestStep_nan_replaces h,
    fun _ _ hb hi => bestStep_keeps_not_nan hb hi⟩
  cases hpop : pop with
  | nil => rw [hpop] at hc; simp at hc
  | cons c0 rest =>
      refine ⟨(c0 :: rest).foldl bestStep c0, by rw [getBestChromosome], ?_⟩
      refine foldl_bestStep_exists_not_nan (c0 :: rest) c0 ⟨c, ?_, hcn⟩
      rw [← hpop]
      exact hc

/-- C9: `getBestChromosome` panics on an empty population (it unconditionally
indexes the first element; the embedding returns `none` there), and for every
non-empty population it returns a member of that population; consequently
`isGoodEnough` — and with it `Run`'s per-generation convergence check — is
defined exactly on non-empty child collections. -/
theorem c9_best_defined_on_nonempty :
    getBestChromosome ([] : List Chrom) = none ∧
    (∀ pop : List Chrom, pop ≠ [] →
      ∃ b, getBestChromosome pop = some b ∧ b ∈ pop) ∧
    (∀ (good : Chrom → Bool) (pop : List Chrom), pop ≠ [] →
      ∃ r, isGoodEnough good pop = some r) := by
  refine ⟨rfl, ?_, ?_⟩
  · intro pop hne
    cases hpop : pop with
    | nil => exact absurd hpop hne
    | cons c0 rest =>
        refine ⟨(c0 :: rest).foldl bestStep c0, by rw [getBestChromosome], ?_⟩
        exact foldl_bestStep_mem (c0 :: rest) c0 (c0 :: rest)
          (List.mem_cons_self c0 rest) fun x hx => hx
  · intro good pop hne
    cases hpop : pop with
    | nil => exact absurd hpop hne
    | cons c0 rest =>
        exact ⟨good ((c0 :: rest).foldl bestStep c0), by rw [isGoodEnough, getBestChromosome]; rfl⟩

/-! ### Concrete instances -/

/-- Demonstration capability bundle: trivial breeding, constant fitness 1,
identity mutation and learning, always-satisfied convergence threshold. -/
def demoCaps : Caps :=
  ⟨fun a b => (a, b), fun _ => GFloat.val 1, fun c => c, fun c => c, fun _ => true⟩

/-- Demonstration random stream: every draw is 0. -/
def demoRands : Nat → Nat → ℚ := fun _ _ => 0

/-- Eight distinct chromosomes, all with fitness 1. -/
def demoPopEight : List Chrom :=
  [⟨0, GFloat.val 1⟩, ⟨1, GFloat.val 1⟩, ⟨2, GFloat.val 1⟩, ⟨3, GFloat.val 1⟩,
   ⟨4, GFloat.val 1⟩, ⟨5, GFloat.val 1⟩, ⟨6, GFloat.val 1⟩, ⟨7, GFloat.val 1⟩]

/-- Ten distinct chromosomes, all with fitness 1. -/
def demoPopTen : List Chrom :=
  demoPopEight ++ [⟨8, GFloat.val 1⟩, ⟨9, GFloat.val 1⟩]

/-- The four parents `Run` selects from `demoPopEight` under `demoRands`,
after their fitness is re-evaluated to 1. -/
def demoParents : List Chrom :=
  [⟨0, GFloat.val 1⟩, ⟨1, GFloat.val 1⟩, ⟨2, GFloat.val 1⟩, ⟨3, GFloat.val 1⟩]

/-- The five parents `Run` selects from `demoPopTen` under `demoRands`,
after their fitness is re-evaluated to 1. -/
def demoParentsFive : List Chrom :=
  [⟨0, GFloat.val 1⟩, ⟨1, GFloat.val 1⟩, ⟨2, GFloat.val 1⟩, ⟨3, GFloat.val 1⟩, ⟨4, GFloat.val 1⟩]

/-- The spec scenario for selection: four identical chromosomes of fitness 10. -/
def demoTens : List Chrom :=
  [⟨0, GFloat.val 10⟩, ⟨1, GFloat.val 10⟩, ⟨2, GFloat.val 10⟩, ⟨3, GFloat.val 10⟩]

/-- A population whose first member has NaN fitness and whose second does not. -/
def demoNanPop : List Chrom := [⟨0, GFloat.nan⟩, ⟨1, GFloat.val 5⟩]

/-- Witness for C1 at the concrete eight-member population of total fitness 8. -/
theorem c1_witness :
    ∃ parents, Selection (fun _ => 0) demoPopEight = some parents ∧
      parents.length = demoPopEight.length / 2 ∧
      (∀ p ∈ parents, p.id ∈ demoPopEight.map Chrom.id) ∧
      (parents.map Chrom.id).Nodup :=
  c1_selection_returns_half_distinct (fun _ => 0) demoPopEight 8
    (by simp [demoPopEight])
    (by norm_num [demoPopEight, sumFitness, gfAdd])
    (by norm_num)

/-- C4 is FALSE in its "population size can grow" part: at the concrete
ten-member working population, one generation produces 5 parents and 4
children, so the next working population has 9 members — strictly FEWER than
10 (and by the amended theorem the merged population can never exceed the
previous size, because the child count is truncated to a multiple of four
and hence never exceeds the parent count). -/
theorem c4_counterexample_population_shrinks :
    genStep demoCaps demoRands 0 demoPopTen =
      some (demoParentsFive, demoParents, demoParentsFive ++ demoParents) ∧
    demoPopTen.length = 10 ∧ (demoParentsFive ++ demoParents).length = 9 := by
  refine ⟨?_, by simp [demoPopTen, demoPopEight], by simp [demoParentsFive, demoParents]⟩
  norm_num [genStep, demoCaps, demoRands, demoPopTen, demoPopEight, demoParents, demoParentsFive,
    Selection, selectionGo, selectParent, preparedPool, sortedNormalized, normalizePop,
    sumFitness, accPass, scanPick, gfAdd, gfDiv, gfGt, gfLe, chromLe,
    List.insertionSort, List.orderedInsert,
    calculatePopulationFitness, Crossover, breedPairs, fanIn, Mutation, Learn]

/-- Witness for the amended C4 at the concrete ten-member population. -/
theorem c4_witness :
    demoParentsFive ++ demoParents = demoParentsFive ++ demoParents ∧
    (demoParentsFive ++ demoParents).length =
      demoPopTen.length / 2 + 4 * ((demoPopTen.length / 2) / 4) ∧
    (demoParentsFive ++ demoParents).length ≤ demoPopTen.length :=
  c4_next_population_parents_append_children demoCaps demoRands 0 demoPopTen
    demoParentsFive demoParents (demoParentsFive ++ demoParents)
    (by norm_num [genStep, demoCaps, demoRands, demoPopTen, demoPopEight, demoParents,
      demoParentsFive, Selection, selectionGo, selectParent, preparedPool, sortedNormalized,
      normalizePop, sumFitness, accPass, scanPick, gfAdd, gfDiv, gfGt, gfLe, chromLe,
      List.insertionSort, List.orderedInsert,
      calculatePopulationFitness, Crossover, breedPairs, fanIn, Mutation, Learn])

/-- Witness for C5: from the eight-member demo population, generation 0
selects `demoParents`, breeds them into four children that are all good
enough, and the loop stops at once with the success status for generation 0
and the best child stored. -/
theorem c5_witness :
    runLoop demoCaps demoRands 1 0 demoPopEight ⟨none, failedStatus 1⟩ =
      some ⟨some ⟨0, GFloat.val 1⟩, successStatus 0⟩ :=
  c5_convergence_checks_children_only demoCaps demoRands 0 0 demoPopEight
    ⟨none, failedStatus 1⟩ demoParents demoParents (demoParents ++ demoParents)
    ⟨0, GFloat.val 1⟩
    (by norm_num [genStep, demoCaps, demoRands, demoPopEight, demoParents,
      Selection, selectionGo, selectParent, preparedPool, sortedNormalized, normalizePop,
      sumFitness, accPass, scanPick, gfAdd, gfDiv, gfGt, gfLe, chromLe,
      List.insertionSort, List.orderedInsert,
      calculatePopulationFitness, Crossover, breedPairs, fanIn, Mutation, Learn])
    (by norm_num [getBestChromosome, bestStep, gfGt, gfIsNan, demoParents])
    rfl

/-- C6 is FALSE in its "stores the last computed best chromosome" part:
with `MaxIterations = 0` on a non-empty population, `Run` sets the
bounded-failure status but no best chromosome is ever computed and `Result`
stays unset (nil in Go, `none` here) — no chromosome is stored. -/
theorem c6_counterexample_result_unset :
    Run demoCaps demoRands 0 demoPopEight = some ⟨none, failedStatus 0⟩ := rfl

/-- Capability bundle equal to `demoCaps` except that the convergence
threshold is never met, so every run exhausts its iteration bound. -/
def demoCapsNever : Caps :=
  ⟨fun a b => (a, b), fun _ => GFloat.val 1, fun c => c, fun c => c, fun _ => false⟩

/-- Witness for the amended C6, exercising both clauses: `MaxIterations = 0`
leaves `Result` unset with the bounded-failure status, and a one-generation
run that never converges exhausts the bound with `Result` holding the best
child of its last (only) generation. -/
theorem c6_witness :
    Run demoCapsNever demoRands 0 demoPopEight = some ⟨none, failedStatus 0⟩ ∧
    ∃ j popj parents children next,
      genStep demoCapsNever demoRands j popj = some (parents, children, next) ∧
      genPops demoCapsNever demoRands j 0
        (calculatePopulationFitness demoCapsNever.cf demoPopEight) = some popj ∧
      j ≤ 0 ∧
      (⟨some ⟨0, GFloat.val 1⟩, failedStatus 1⟩ : RunOutcome).result
        = getBestChromosome children ∧
      (((⟨some ⟨0, GFloat.val 1⟩, failedStatus 1⟩ : RunOutcome).status = successStatus j ∧
          isGoodEnough demoCapsNever.good children = some true) ∨
        (j = 0 ∧
          (⟨some ⟨0, GFloat.val 1⟩, failedStatus 1⟩ : RunOutcome).status = failedStatus (0 + 1) ∧
          isGoodEnough demoCapsNever.good children = some false)) := by
  have h := c6_zero_iterations_failed_status demoCapsNever demoRands demoPopEight
  refine ⟨h.1, h.2 0 ⟨some ⟨0, GFloat.val 1⟩, failedStatus 1⟩ ?_⟩
  norm_num [Run, runLoop, genStep, demoCapsNever, demoRands, demoPopEight, demoParents,
    Selection, selectionGo, selectParent, preparedPool, sortedNormalized, normalizePop,
    sumFitness, accPass, scanPick, gfAdd, gfDiv, gfGt, gfLe, chromLe,
    List.insertionSort, List.orderedInsert,
    calculatePopulationFitness, Crossover, breedPairs, fanIn, Mutation, Learn,
    getBestChromosome, bestStep, gfIsNan, isGoodEnough]

/-- Witness for C3 at the spec's own scenario: five parents yield exactly
four children. -/
theorem c3_witness :
    ∃ cs, Crossover (fun a b => (a, b)) demoParentsFive = some cs ∧ cs.length = 4 := by
  obtain ⟨cs, h1, h2⟩ := c3_crossover_children_count (fun a b => (a, b)) demoParentsFive
    (by simp [demoParentsFive])
  exact ⟨cs, h1, by simpa [demoParentsFive] using h2⟩

/-- Witness for C7 at the spec scenario of four fitness-10 chromosomes
(total 40): the accumulated values top out at exactly 1. -/
theorem c7_witness :
    (preparedPool demoTens).getLast?.map Chrom.fitness = some (GFloat.val 1) ∧
    ∀ c ∈ preparedPool demoTens, ∃ q, c.fitness = GFloat.val q ∧ q ≤ 1 :=
  c7_accumulated_fitness_reaches_one demoTens 40
    (by norm_num [demoTens, sumFitness, gfAdd])
    (by norm_num)

/-- Witness for C8 on a population whose first member has NaN fitness. -/
theorem c8_witness :
    (∃ b, getBestChromosome demoNanPop = some b ∧ gfIsNan b.fitness = false) ∧
    (∀ best ind : Chrom, gfIsNan best.fitness = true → bestStep best ind = ind) ∧
    (∀ best ind : Chrom, gfIsNan best.fitness = false → gfIsNan ind.fitness = true →
      bestStep best ind = best) :=
  c8_best_never_nan demoNanPop ⟨1, GFloat.val 5⟩
    (by unfold demoNanPop; exact List.mem_cons_of_mem _ (List.mem_cons_self _ _))
    rfl

/-- Witness for C9 on a singleton population. -/
theorem c9_witness :
    (∃ b, getBestChromosome [⟨0, GFloat.val 1⟩] = some b ∧ b ∈ [⟨0, GFloat.val 1⟩]) ∧
    (∃ r, isGoodEnough (fun _ => true) [⟨0, GFloat.val 1⟩] = some r) := by
  have h := c9_best_defined_on_nonempty
  exact ⟨h.2.1 _ (by simp), h.2.2 (fun _ => true) _ (by simp)⟩

/-- Witness for C10 on a concrete two-member population. -/
theorem c10_witness :
    (∃ p rest, selectParent 0 [⟨0, GFloat.val 1⟩, ⟨1, GFloat.val 1⟩] = some (p, rest) ∧
      rest.length + 1 = 2) ∧
    (∃ parents, Selection (fun _ => 0) [⟨0, GFloat.val 1⟩, ⟨1, GFloat.val 1⟩] = some parents ∧
      parents.length = 1) := by
  have h := c10_selection_terminates
  constructor
  · have h2 := h.1 0 [⟨0, GFloat.val 1⟩, ⟨1, GFloat.val 1⟩] (by simp)
    simpa using h2
  · have h2 := h.2 (fun _ => 0) [⟨0, GFloat.val 1⟩, ⟨1, GFloat.val 1⟩]
    simpa using h2
